import Mathlib

/-!
Verification development for the nitime time-series module
(src/nitime/timeseries.py).  The definitions below are shallow embeddings
of the corresponding Python functions; floating-point values are modelled
by exact rationals, machine integers by `Int`/`Nat`, complex arrays by a
pair-of-rationals complex type, and Python dictionaries by extensional
key-value maps.  Each claim theorem is stated over these embeddings.
-/

/-- Shallow embedding of the closed enumeration of valid time units
(module global `time_unit_conversion` keys; the `None` key is handled by
default arguments, matching the Python default of seconds). -/
inductive TimeUnit where
  | ps | ns | us | ms | s | m | h | D | W
deriving DecidableEq, Repr

/-- Embeds the module-global dict `time_unit_conversion`: ticks of the base
resolution (picoseconds) per unit. -/
def time_unit_conversion : TimeUnit → ℕ
  | .ps => 1
  | .ns => 10 ^ 3
  | .us => 10 ^ 6
  | .ms => 10 ^ 9
  | .s => 10 ^ 12
  | .m => 60 * 10 ^ 12
  | .h => 3600 * 10 ^ 12
  | .D => 24 * 3600 * 10 ^ 12
  | .W => 7 * 24 * 3600 * 10 ^ 12

/-- Embeds the expression `float(tuc['s'])/tuc[time_unit]` used by
`Frequency.__new__` and `Frequency.to_period`. -/
def scale_factor (u : TimeUnit) : ℚ :=
  (time_unit_conversion TimeUnit.s : ℚ) / (time_unit_conversion u : ℚ)

/-- Embeds `np.int64(x)` applied to a float value: conversion truncates
toward zero. -/
def np_int64_trunc (q : ℚ) : ℤ :=
  if 0 ≤ q then ⌊q⌋ else ⌈q⌉

/-- Embeds numpy `.round()` (round half to even), used by `TimeArray.__new__`
when casting non-integer inputs to ticks. -/
def np_round (q : ℚ) : ℤ :=
  let f := ⌊q⌋
  let r := q - (f : ℚ)
  if r < 1 / 2 then f
  else if 1 / 2 < r then f + 1
  else if f % 2 = 0 then f else f + 1

/-- Embeds `Frequency.__new__`: a frequency stored canonically in Hz,
built from a rate tagged with `time_unit` (default seconds) by multiplying
with `scale_factor`. -/
def Frequency.make (f : ℚ) (u : TimeUnit := TimeUnit.s) : ℚ :=
  f * scale_factor u

/-- Embeds `Frequency.to_period`: `np.int64((1/self)*scale_factor)`, with
the base unit (`ps`) as the default target unit. -/
def Frequency.to_period (f : ℚ) (u : TimeUnit := TimeUnit.ps) : ℤ :=
  np_int64_trunc ((1 / f) * scale_factor u)

/-- Embeds `np.arange(start, stop, step, dtype=np.int64)` for a positive
`step` (the only use in `UniformTime.__new__`): the arithmetic sequence
`start, start+step, ...` with `ceil((stop-start)/step)` terms. -/
def npArange (start stop step : ℤ) : List ℤ :=
  let cnt : ℕ := ((stop - start).toNat + step.toNat - 1) / step.toNat
  (List.range cnt).map fun (k : ℕ) => start + (k : ℤ) * step

/-- Embeds the `UniformTime.__new__` pipeline for the (sampling_rate,
length) parameter combination with `t0 = 0` and `time_unit='s'` (the claim
C6 instance path): the rate is wrapped as `Frequency(rate, 's')`, the
sampling interval is `to_period()` in base-unit ticks (an `np.int64`, so
the later `TimeArray` casts leave it unchanged), `duration =
length*sampling_interval`, and the ticks are
`np.arange(t0, t0+duration, sampling_interval)`.  Construction fails when
`duration < sampling_interval`. -/
def uniformTimeRateLength (rate : ℚ) (length : ℕ) : Except String (List ℤ) :=
  let sampling_interval : ℤ := Frequency.to_period (Frequency.make rate TimeUnit.s)
  let duration : ℤ := (length : ℤ) * sampling_interval
  let t0 : ℤ := 0
  if duration < sampling_interval then
    Except.error "length/duration too short for the sampling_interval/sampling_rate"
  else
    Except.ok (npArange t0 (t0 + duration) sampling_interval)

/-- Embeds the `UniformTime.__new__` pipeline for the (sampling_interval,
length) parameter combination with `t0 = 0` and `time_unit='s'`: here the
interval is a float given in seconds, `duration = length*sampling_interval`
is computed in float seconds, and both are rounded to ticks independently
by the `TimeArray` casts (`(x*conv_fac).round()`), after which
`np.arange(t0, t0+duration, sampling_interval)` runs on the tick values. -/
def uniformTimeIntervalLength (interval : ℚ) (length : ℕ) : Except String (List ℤ) :=
  let interval_ticks : ℤ := np_round (interval * (time_unit_conversion TimeUnit.s : ℚ))
  let duration_ticks : ℤ := np_round ((length : ℚ) * interval * (time_unit_conversion TimeUnit.s : ℚ))
  let t0 : ℤ := 0
  if duration_ticks < interval_ticks then
    Except.error "length/duration too short for the sampling_interval/sampling_rate"
  else
    Except.ok (npArange t0 (t0 + duration_ticks) interval_ticks)

/-- The scale factors are positive for every unit. -/
theorem scale_factor_pos (u : TimeUnit) : 0 < scale_factor u := by
  cases u <;> norm_num [scale_factor, time_unit_conversion]

/-- On nonnegative arguments `np.int64` truncation is the floor. -/
theorem np_int64_trunc_of_nonneg {q : ℚ} (h : 0 ≤ q) : np_int64_trunc q = ⌊q⌋ := by
  simp [np_int64_trunc, h]

/-- C2 counterexample: the frequency 64 Hz converted to a period in
milliseconds.  The exact value is 15.625 ms; the code truncates to 15
while the claim (round to nearest) would give 16.  All floating-point
operations at this input are exact, so the rational model coincides with
the float computation. -/
theorem Frequency_to_period_round_cex :
    Frequency.to_period (Frequency.make 64 TimeUnit.s) TimeUnit.ms = 15 ∧
    round ((1 / Frequency.make 64 TimeUnit.s) * scale_factor TimeUnit.ms) = 16 ∧
    (Frequency.to_period (Frequency.make 64 TimeUnit.s) TimeUnit.ms : ℤ) ≠
      round ((1 / Frequency.make 64 TimeUnit.s) * scale_factor TimeUnit.ms) := by
  have h1 : Frequency.to_period (Frequency.make 64 TimeUnit.s) TimeUnit.ms = 15 := by
    norm_num [Frequency.to_period, Frequency.make, scale_factor, time_unit_conversion,
      np_int64_trunc]
  have h2 : round ((1 / Frequency.make 64 TimeUnit.s) * scale_factor TimeUnit.ms) = 16 := by
    norm_num [Frequency.make, scale_factor, time_unit_conversion, round_eq]
  exact ⟨h1, h2, by rw [h1, h2]; decide⟩

/-- C2 (amended): for every positive frequency `f`, `to_period f u` is the
truncation toward zero -- equivalently the floor -- of the reciprocal
scaled to ticks of the target unit: it is the unique integer `p` with
`p ≤ (1/f)*scale_factor u < p + 1`.  (The claim said round-to-nearest;
`np.int64` truncates.)  The base unit `ps` is the default target unit in
the definition, as the claim states. -/
theorem Frequency_to_period_is_floor (f : ℚ) (u : TimeUnit) (hf : 0 < f) :
    ((Frequency.to_period f u : ℚ) ≤ (1 / f) * scale_factor u ∧
      (1 / f) * scale_factor u < (Frequency.to_period f u : ℚ) + 1) := by
  have hx : 0 ≤ (1 / f) * scale_factor u :=
    mul_nonneg (le_of_lt (by positivity)) (le_of_lt (scale_factor_pos u))
  rw [Frequency.to_period, np_int64_trunc_of_nonneg hx]
  exact ⟨Int.floor_le _, Int.lt_floor_add_one _⟩

/-- C2 witness: the amended theorem applied at the concrete frequency
2 Hz with the default base unit; the period is 5*10^11 ticks. -/
theorem Frequency_to_period_is_floor_witness :
    (0 : ℚ) < 2 ∧
      ((Frequency.to_period 2 TimeUnit.ps : ℚ) ≤ (1 / 2) * scale_factor TimeUnit.ps ∧
        (1 / 2) * scale_factor TimeUnit.ps < (Frequency.to_period 2 TimeUnit.ps : ℚ) + 1) :=
  ⟨by norm_num, Frequency_to_period_is_floor 2 TimeUnit.ps (by norm_num)⟩

theorem npArange_length (start stop step : ℤ) :
    (npArange start stop step).length = ((stop - start).toNat + step.toNat - 1) / step.toNat := by
  simp only [npArange, List.length_map, List.length_range]

theorem npArange_getD (start stop step : ℤ) (k : ℕ)
    (hk : k < (npArange start stop step).length) :
    (npArange start stop step).getD k 0 = start + (k : ℤ) * step := by
  have hk' : k < ((stop - start).toNat + step.toNat - 1) / step.toNat := by
    simpa only [npArange, List.length_map, List.length_range] using hk
  simp only [npArange]
  rw [List.getD_eq_getElem?_getD, List.getElem?_map, List.getElem?_range hk']
  rfl

/-- The tick count of `np.arange(t0, t0+d, s)` for positive step `s` and
positive span `d` is the ceiling of `d/s`: the unique `L` with
`d ≤ s*L < d + s`. -/
theorem npArange_length_ceil (t0 d s : ℤ) (hs : 0 < s) (hd : 0 < d) :
    d ≤ s * ((npArange t0 (t0 + d) s).length : ℤ) ∧
      s * ((npArange t0 (t0 + d) s).length : ℤ) < d + s := by
  rw [npArange_length]
  have hdn : ((d.toNat : ℤ)) = d := Int.toNat_of_nonneg hd.le
  have hsn : ((s.toNat : ℤ)) = s := Int.toNat_of_nonneg hs.le
  have hsd : t0 + d - t0 = d := by ring
  rw [hsd]
  set dn := d.toNat with hdn_def
  set sn := s.toNat with hsn_def
  have hsn0 : 0 < sn := by omega
  set L := (dn + sn - 1) / sn with hL
  have hdm := Nat.div_add_mod (dn + sn - 1) sn
  have hmod : (dn + sn - 1) % sn < sn := Nat.mod_lt _ hsn0
  have key : dn ≤ sn * L ∧ sn * L < dn + sn := by
    rw [← hL] at hdm
    generalize sn * L = M at hdm ⊢
    omega
  constructor
  · calc d = (dn : ℤ) := hdn.symm
      _ ≤ ((sn * L : ℕ) : ℤ) := by exact_mod_cast key.1
      _ = s * (L : ℤ) := by push_cast; rw [hsn]
  · calc s * (L : ℤ) = ((sn * L : ℕ) : ℤ) := by push_cast; rw [hsn]
      _ < ((dn + sn : ℕ) : ℤ) := by exact_mod_cast key.2
      _ = d + s := by push_cast; rw [hdn, hsn]

/-- C6 counterexample: in the (sampling_interval, length) combination the
interval 1.04e-11 s rounds to 10 ticks while the duration
`10 * 1.04e-11 s` rounds to 104 ticks, so the generated axis has
ceil(104/10) = 11 entries although `length = 10` was given directly. -/
theorem uniformTime_length_cex :
    uniformTimeIntervalLength (13 / 1250000000000) 10 = Except.ok (npArange 0 104 10) ∧
      (npArange 0 104 10).length = 11 ∧ (npArange 0 104 10).length ≠ 10 := by
  have h1 : uniformTimeIntervalLength (13 / 1250000000000) 10 = Except.ok (npArange 0 104 10) := by
    have hi : np_round ((13 / 1250000000000 : ℚ) * (time_unit_conversion TimeUnit.s : ℚ)) = 10 := by
      norm_num [np_round, time_unit_conversion]
    have hd : np_round (((10 : ℕ) : ℚ) * (13 / 1250000000000) *
        (time_unit_conversion TimeUnit.s : ℚ)) = 104 := by
      norm_num [np_round, time_unit_conversion]
    rw [uniformTimeIntervalLength]
    rw [hi, hd]
    norm_num
  refine ⟨h1, by rw [npArange_length]; rfl, by rw [npArange_length]; decide⟩

/-- C6 (amended): the generated ticks are the arithmetic sequence starting
at `t0` with step `sampling_interval`, containing `ceil(duration/interval)`
terms (in tick space), with first element `t0`; the claim instance
`UniformTimeAxis(length=4, sampling_rate=2, unit='s')` yields exactly the
ticks `[0, 0.5, 1.0, 1.5]` seconds (in base-unit picosecond ticks,
`[0, 5*10^11, 10^12, 15*10^11]`); and in the (rate, length) combination
the axis has exactly `length` entries.  The parenthetical "exactly
`length` entries when `length` was given directly" fails for the
(interval, length) combination (see the counterexample), because there
`duration = length*interval` is rounded to ticks independently of the
interval. -/
theorem uniformTime_generation :
    uniformTimeRateLength 2 4 =
        Except.ok [0, 500000000000, 1000000000000, 1500000000000] ∧
      (∀ t0 d s : ℤ, 0 < s → 0 < d →
        (d ≤ s * ((npArange t0 (t0 + d) s).length : ℤ) ∧
          s * ((npArange t0 (t0 + d) s).length : ℤ) < d + s) ∧
        (∀ k : ℕ, k < (npArange t0 (t0 + d) s).length →
          (npArange t0 (t0 + d) s).getD k 0 = t0 + (k : ℤ) * s) ∧
        (s ≤ d → (npArange t0 (t0 + d) s).getD 0 0 = t0)) ∧
      (∀ (rate : ℚ) (L : ℕ) (l : List ℤ),
        0 < Frequency.to_period (Frequency.make rate TimeUnit.s) →
        uniformTimeRateLength rate L = Except.ok l → l.length = L) := by
  refine ⟨?_, ?_, ?_⟩
  · have hi : Frequency.to_period (Frequency.make 2 TimeUnit.s) = 500000000000 := by
      norm_num [Frequency.to_period, Frequency.make, scale_factor, time_unit_conversion,
        np_int64_trunc]
    rw [uniformTimeRateLength, hi]
    norm_num [npArange]
    decide
  · intro t0 d s hs hd
    refine ⟨npArange_length_ceil t0 d s hs hd, fun k hk => npArange_getD _ _ _ k hk, ?_⟩
    intro hsd
    have hlen : 0 < (npArange t0 (t0 + d) s).length := by
      by_contra h
      have h0 : (npArange t0 (t0 + d) s).length = 0 := by omega
      have := (npArange_length_ceil t0 d s hs hd).1
      rw [h0] at this
      simp at this
      omega
    have := npArange_getD t0 (t0 + d) s 0 hlen
    simpa using this
  · intro rate L l hi hok
    rw [uniformTimeRateLength] at hok
    set i := Frequency.to_period (Frequency.make rate TimeUnit.s) with hidef
    by_cases hC : (L : ℤ) * i < i
    · rw [if_pos hC] at hok
      exact absurd hok (by simp)
    · rw [if_neg hC] at hok
      have hL0 : L ≠ 0 := by
        intro h0
        apply hC
        rw [h0]
        simpa using hi
      injection hok with hok
      subst hok
      rw [npArange_length]
      have h1 : (0 + (L : ℤ) * i - 0).toNat = L * i.toNat := by
        have h2 : ((((L : ℤ) * i).toNat : ℕ) : ℤ) = ((L * i.toNat : ℕ) : ℤ) := by
          rw [Int.toNat_of_nonneg (by positivity)]
          push_cast
          rw [Int.toNat_of_nonneg hi.le]
        have h3 : ((L : ℤ) * i).toNat = L * i.toNat := by exact_mod_cast h2
        simpa using h3
      rw [h1]
      have hin : 0 < i.toNat := by omega
      have : L * i.toNat + i.toNat - 1 = i.toNat * L + (i.toNat - 1) := by
        have := hin
        ring_nf
        omega
      rw [this, Nat.mul_add_div hin]
      have : (i.toNat - 1) / i.toNat = 0 := Nat.div_eq_of_lt (by omega)
      omega

/-- C6 witness: the general clauses of the generation theorem applied at
step 10 and span 104 (the ceiling count is 11) and the (rate, length)
clause applied at rate 2 Hz, length 4. -/
theorem uniformTime_generation_witness :
    ((0 : ℤ) < 10 ∧ (0 : ℤ) < 104 ∧
      (104 ≤ 10 * ((npArange 0 ((0 : ℤ) + 104) 10).length : ℤ) ∧
        10 * ((npArange 0 ((0 : ℤ) + 104) 10).length : ℤ) < 104 + 10)) ∧
      (0 < Frequency.to_period (Frequency.make 2 TimeUnit.s) ∧
        [(0 : ℤ), 500000000000, 1000000000000, 1500000000000].length = 4) := by
  have hpos : 0 < Frequency.to_period (Frequency.make 2 TimeUnit.s) := by
    norm_num [Frequency.to_period, Frequency.make, scale_factor, time_unit_conversion,
      np_int64_trunc]
  exact ⟨⟨by norm_num, by norm_num,
      (uniformTime_generation.2.1 0 104 10 (by norm_num) (by norm_num)).1⟩,
    ⟨hpos, uniformTime_generation.2.2 2 4 _ hpos uniformTime_generation.1⟩⟩

/-- Complex numbers with exact rational parts, modelling the complex
float arrays of the analyzers. -/
structure CplxQ where
  re : ℚ
  im : ℚ
deriving DecidableEq, Repr

/-- Embeds numpy complex conjugation. -/
def CplxQ.conj (z : CplxQ) : CplxQ := ⟨z.re, -z.im⟩

instance : Zero CplxQ := ⟨⟨0, 0⟩⟩

instance : One CplxQ := ⟨⟨1, 0⟩⟩

/-- The index pairs visited by the nested loops
`for i in xrange(n): for j in xrange(i, n)` shared by
`CoherenceAnalyzer.coherence`, `.coherency`, `.phase` and
`CorrelationAnalyzer.xcorr`, `.xcorr_norm` -- exactly the pairs at which
the pairwise estimator is invoked. -/
def upperPairs (n : ℕ) : List (ℕ × ℕ) :=
  (List.range n).flatMap fun i => (List.range' i (n - i)).map fun j => (i, j)

theorem mem_upperPairs (n : ℕ) (p : ℕ × ℕ) :
    p ∈ upperPairs n ↔ p.1 ≤ p.2 ∧ p.2 < n := by
  cases p with
  | mk a b =>
    simp only [upperPairs, List.mem_flatMap, List.mem_map, List.mem_range, Prod.mk.injEq]
    constructor
    · rintro ⟨i, hi, j, hj, rfl, rfl⟩
      have hj' := List.mem_range'_1.mp hj
      exact ⟨hj'.1, by omega⟩
    · rintro ⟨hab, hbn⟩
      exact ⟨a, by omega, b, List.mem_range'_1.mpr ⟨hab, by omega⟩, rfl, rfl⟩

theorem sum_map_succ_of (l : List ℕ) (f g : ℕ → ℕ) (h : ∀ x ∈ l, f x = g x + 1) :
    (l.map f).sum = (l.map g).sum + l.length := by
  induction l with
  | nil => simp
  | cons a t ih =>
    simp only [List.map_cons, List.sum_cons, List.length_cons]
    rw [h a (by simp), ih (fun x hx => h x (by simp [hx]))]
    omega

theorem sum_range_sub_two_mul (n : ℕ) :
    (((List.range n).map fun i => n - i).sum) * 2 = n * (n + 1) := by
  induction n with
  | zero => simp
  | succ n ih =>
    rw [List.range_succ, List.map_append, List.sum_append]
    simp only [List.map_cons, List.map_nil, List.sum_cons, List.sum_nil]
    have hstep : ((List.range n).map fun i => n + 1 - i).sum =
        ((List.range n).map fun i => n - i).sum + n := by
      rw [sum_map_succ_of (List.range n) (fun i => n + 1 - i) (fun i => n - i)
        (fun x hx => by
          have hx' := List.mem_range.mp hx
          show n + 1 - x = n - x + 1
          omega)]
      simp
    rw [hstep]
    have e1 : (n + 1) * (n + 1 + 1) = n * (n + 1) + 2 * (n + 1) := by ring
    rw [e1, ← ih]
    have e2 : n + 1 - n = 1 := by omega
    rw [e2]
    ring

theorem length_upperPairs (n : ℕ) : (upperPairs n).length = n * (n + 1) / 2 := by
  have h2 : (upperPairs n).length * 2 = n * (n + 1) := by
    rw [upperPairs, List.length_flatMap]
    have hmap : (List.range n).map (List.length ∘ fun i =>
        (List.range' i (n - i)).map fun j => ((i, j) : ℕ × ℕ)) =
        (List.range n).map fun i => n - i := by
      apply List.map_congr_left
      intro i _
      simp [Function.comp, List.length_map, List.length_range']
    rw [hmap, sum_range_sub_two_mul]
  have := h2
  generalize hM : n * (n + 1) = M at this ⊢
  omega

/-- One iteration of the upper-triangle filling loops: the assignment
`X[i][j] = estimator(...)` as a functional update of the matrix. -/
def assignStep {α : Type} (est : ℕ → ℕ → ℕ → α) (m : ℕ × ℕ → ℕ → α) (p : ℕ × ℕ) :
    ℕ × ℕ → ℕ → α :=
  fun q f => if q = p then est p.1 p.2 f else m q f

theorem foldl_assignStep {α : Type} (est : ℕ → ℕ → ℕ → α) (l : List (ℕ × ℕ))
    (m0 : ℕ × ℕ → ℕ → α) (q : ℕ × ℕ) (f : ℕ) :
    (l.foldl (assignStep est) m0) q f = if q ∈ l then est q.1 q.2 f else m0 q f := by
  induction l generalizing m0 with
  | nil => simp
  | cons a t ih =>
    rw [List.foldl_cons, ih]
    by_cases hqt : q ∈ t
    · simp [hqt]
    · by_cases hqa : q = a
      · subst hqa
        simp [hqt, assignStep]
      · simp [hqt, hqa, assignStep]

/-- The upper-triangle fill loop of `CoherenceAnalyzer.coherence` /
`.coherency`: starting from an all-zeros matrix, assign
`X[i][j] = estimator(spectrum[i][j], spectrum[i][i], spectrum[j][j])` for
each visited pair `i <= j`; `est i j f` stands for the estimator value at
frequency bin `f`. -/
def fillUpper {α : Type} [Zero α] (est : ℕ → ℕ → ℕ → α) (n : ℕ) : ℕ × ℕ → ℕ → α :=
  (upperPairs n).foldl (assignStep est) fun _ _ => 0

/-- Embeds the mirroring assignment
`X[idx[0],idx[1],...] = X[idx[1],idx[0],...].conj()` over
`tril_indices(n,-1)` (numpy evaluates the right-hand side before
assigning, and the read cells are disjoint from the written cells, so a
single functional step is the exact semantics). -/
def mirrorConj (m : ℕ × ℕ → ℕ → CplxQ) : ℕ × ℕ → ℕ → CplxQ :=
  fun q f => if q.2 < q.1 then CplxQ.conj (m (q.2, q.1) f) else m q f

/-- Embeds the same mirroring assignment on the real (float dtype) array
of `CoherenceAnalyzer.coherence` and `CorrelationAnalyzer.xcorr`, where
`.conj()` is the identity. -/
def mirrorCopy (m : ℕ × ℕ → ℕ → ℚ) : ℕ × ℕ → ℕ → ℚ :=
  fun q f => if q.2 < q.1 then m (q.2, q.1) f else m q f

/-- Embeds `CoherenceAnalyzer.coherency`: upper-triangle estimator fill
followed by conjugate mirroring of the strictly-lower triangle. -/
def coherencyM (est : ℕ → ℕ → ℕ → CplxQ) (n : ℕ) : ℕ × ℕ → ℕ → CplxQ :=
  mirrorConj (fillUpper est n)

/-- Embeds `CoherenceAnalyzer.coherence`: same loop structure on the real
coherence values. -/
def coherenceM (est : ℕ → ℕ → ℕ → ℚ) (n : ℕ) : ℕ × ℕ → ℕ → ℚ :=
  mirrorCopy (fillUpper est n)

theorem fillUpper_eq {α : Type} [Zero α] (est : ℕ → ℕ → ℕ → α) (n : ℕ) (i j f : ℕ)
    (hij : i ≤ j) (hjn : j < n) : fillUpper est n (i, j) f = est i j f := by
  rw [fillUpper, foldl_assignStep]
  rw [if_pos ((mem_upperPairs n (i, j)).mpr ⟨hij, hjn⟩)]

theorem coherencyM_eval (est : ℕ → ℕ → ℕ → CplxQ) (n a b f : ℕ) :
    coherencyM est n (a, b) f =
      if b < a then CplxQ.conj (fillUpper est n (b, a) f) else fillUpper est n (a, b) f := rfl

theorem coherenceM_eval (est : ℕ → ℕ → ℕ → ℚ) (n a b f : ℕ) :
    coherenceM est n (a, b) f =
      if b < a then fillUpper est n (b, a) f else fillUpper est n (a, b) f := rfl

/-- C1: post-mirroring, `coherency[j,i,f] = conj(coherency[i,j,f])` and
`coherence[j,i,f] = coherence[i,j,f]` exactly for every pair `i <= j` and
frequency bin `f`; the pairwise estimator is invoked exactly at the pairs
`{(i,j) : i <= j < n}` -- `n*(n+1)/2` invocations per derived attribute --
and the strictly-lower triangle is only mirrored, never recomputed.  The
hypothesis states that the estimator is self-conjugate on the diagonal
(true of the real coherency estimator, whose diagonal value
`s/sqrt(s*s)` is real). -/
theorem coherence_upper_triangle_symmetry (n : ℕ) (est : ℕ → ℕ → ℕ → CplxQ)
    (estR : ℕ → ℕ → ℕ → ℚ)
    (hdiag : ∀ i f, CplxQ.conj (est i i f) = est i i f) :
    (∀ i j f, i ≤ j → j < n →
      coherencyM est n (j, i) f = CplxQ.conj (coherencyM est n (i, j) f)) ∧
    (∀ i j f, i ≤ j → j < n →
      coherenceM estR n (j, i) f = coherenceM estR n (i, j) f) ∧
    (upperPairs n).length = n * (n + 1) / 2 ∧
    (∀ p : ℕ × ℕ, p ∈ upperPairs n ↔ p.1 ≤ p.2 ∧ p.2 < n) := by
  refine ⟨?_, ?_, length_upperPairs n, mem_upperPairs n⟩
  · intro i j f hij hjn
    rw [coherencyM_eval, coherencyM_eval]
    rcases lt_or_eq_of_le hij with hlt | heq
    · rw [if_pos hlt, if_neg (by omega)]
    · subst heq
      rw [if_neg (by omega), fillUpper_eq est n i i f le_rfl hjn, hdiag]
  · intro i j f hij hjn
    rw [coherenceM_eval, coherenceM_eval]
    rcases lt_or_eq_of_le hij with hlt | heq
    · rw [if_pos hlt, if_neg (by omega)]
    · subst heq
      rfl

/-- One iteration of the `CoherenceAnalyzer.phase` loop body: the two
assignments `phase[i][j] = pc(spectrum[i][j])` followed by
`phase[j][i] = pc(spectrum[i][j].conjugate())`; the conjugated assignment
is tested first so that on a diagonal pair (`i = j`, where both target
the same cell) the second, conjugated assignment wins, exactly as the
source overwrites it. -/
def phaseStep (pc : CplxQ → ℚ) (s : ℕ → ℕ → ℕ → CplxQ) (m : ℕ × ℕ → ℕ → ℚ) (p : ℕ × ℕ) :
    ℕ × ℕ → ℕ → ℚ :=
  fun q f =>
    if q = (p.2, p.1) then pc (CplxQ.conj (s p.1 p.2 f))
    else if q = (p.1, p.2) then pc (s p.1 p.2 f)
    else m q f

/-- Embeds `CoherenceAnalyzer.phase`: the double loop over pairs `i <= j`
running both assignments per pair, starting from an all-zeros matrix;
`pc` stands for the phase-angle primitive
`tsa.coherency_phase_spectrum_calculate` and `s` for the cross-spectrum
tensor. -/
def phaseM (pc : CplxQ → ℚ) (s : ℕ → ℕ → ℕ → CplxQ) (n : ℕ) : ℕ × ℕ → ℕ → ℚ :=
  (upperPairs n).foldl (phaseStep pc s) fun _ _ => 0

theorem phase_foldl_frame (pc : CplxQ → ℚ) (s : ℕ → ℕ → ℕ → CplxQ) (l : List (ℕ × ℕ))
    (m0 : ℕ × ℕ → ℕ → ℚ) (q : ℕ × ℕ) (f : ℕ)
    (h : ∀ p ∈ l, q ≠ (p.2, p.1) ∧ q ≠ (p.1, p.2)) :
    (l.foldl (phaseStep pc s) m0) q f = m0 q f := by
  induction l generalizing m0 with
  | nil => rfl
  | cons a t ih =>
    rw [List.foldl_cons, ih _ (fun p hp => h p (List.mem_cons_of_mem a hp))]
    have ha := h a (List.mem_cons_self a t)
    simp [phaseStep, ha.1, ha.2]

theorem phase_foldl_eval (pc : CplxQ → ℚ) (s : ℕ → ℕ → ℕ → CplxQ) (l : List (ℕ × ℕ))
    (m0 : ℕ × ℕ → ℕ → ℚ) (a b f : ℕ)
    (hl : ∀ p ∈ l, p.1 ≤ p.2) (hab : a ≤ b) (hmem : (a, b) ∈ l) :
    (l.foldl (phaseStep pc s) m0) (b, a) f = pc (CplxQ.conj (s a b f)) ∧
    (a < b → (l.foldl (phaseStep pc s) m0) (a, b) f = pc (s a b f)) := by
  induction l generalizing m0 with
  | nil => cases hmem
  | cons p t ih =>
    rw [List.foldl_cons]
    by_cases hmt : (a, b) ∈ t
    · exact ih _ (fun p hp => hl p (List.mem_cons_of_mem _ hp)) hmt
    · have hpe : p = (a, b) := by
        rcases List.mem_cons.mp hmem with h | h
        · exact h.symm
        · exact absurd h hmt
      subst hpe
      have hframe1 : ∀ p' ∈ t, ((b, a) : ℕ × ℕ) ≠ (p'.2, p'.1) ∧
          ((b, a) : ℕ × ℕ) ≠ (p'.1, p'.2) := by
        intro p' hp'
        have hp'le := hl p' (List.mem_cons_of_mem _ hp')
        cases p' with
        | mk x y =>
          simp only at hp'le
          simp only [Ne, Prod.mk.injEq, not_and]
          constructor
          · rintro rfl rfl
            exact hmt hp'
          · rintro rfl rfl
            have hab2 : a = b := le_antisymm hab hp'le
            subst hab2
            exact hmt hp'
      constructor
      · rw [phase_foldl_frame pc s t _ _ _ hframe1]
        simp [phaseStep]
      · intro hlt
        have hframe2 : ∀ p' ∈ t, ((a, b) : ℕ × ℕ) ≠ (p'.2, p'.1) ∧
            ((a, b) : ℕ × ℕ) ≠ (p'.1, p'.2) := by
          intro p' hp'
          have hp'le := hl p' (List.mem_cons_of_mem _ hp')
          cases p' with
          | mk x y =>
            simp only at hp'le
            simp only [Ne, Prod.mk.injEq, not_and]
            constructor
            · rintro rfl rfl
              omega
            · rintro rfl rfl
              exact hmt hp'
        rw [phase_foldl_frame pc s t _ _ _ hframe2]
        show (if ((a, b) : ℕ × ℕ) = (b, a) then pc (CplxQ.conj (s a b f))
          else if ((a, b) : ℕ × ℕ) = (a, b) then pc (s a b f)
          else m0 (a, b) f) = pc (s a b f)
        rw [if_neg (by simp only [Prod.mk.injEq, not_and]; omega), if_pos rfl]

/-- C7: for every pair `i <= j` (within range), `phase[i,j]` is the value
of the phase-angle primitive applied directly to `spectrum[i,j]`, and
`phase[j,i]` is the primitive applied to the conjugated cross-spectrum
`conj(spectrum[i,j])` -- not the negation of `phase[i,j]`.  The hypothesis
asks that the primitive is conjugation-invariant on the diagonal spectra
(true of the real program, where the diagonal auto-spectra are real so
both computations write the same value to the twice-assigned diagonal
cell). -/
theorem phase_conjugate_mirroring (n : ℕ) (s : ℕ → ℕ → ℕ → CplxQ) (pc : CplxQ → ℚ)
    (hdiag : ∀ i f, pc (CplxQ.conj (s i i f)) = pc (s i i f)) :
    ∀ i j f, i ≤ j → j < n →
      phaseM pc s n (i, j) f = pc (s i j f) ∧
      phaseM pc s n (j, i) f = pc (CplxQ.conj (s i j f)) := by
  intro i j f hij hjn
  have hl : ∀ p ∈ upperPairs n, p.1 ≤ p.2 := fun p hp => ((mem_upperPairs n p).mp hp).1
  have hmem : (i, j) ∈ upperPairs n := (mem_upperPairs n (i, j)).mpr ⟨hij, hjn⟩
  have h := phase_foldl_eval pc s (upperPairs n) (fun _ _ => 0) i j f hl hij hmem
  refine ⟨?_, h.1⟩
  rcases lt_or_eq_of_le hij with hlt | heq
  · exact h.2 hlt
  · subst heq
    rw [phaseM, h.1, hdiag]

/-- C7 witness: the phase theorem applied to a one-channel spectrum with a
real diagonal value and the real-part primitive. -/
theorem phase_conjugate_mirroring_witness :
    phaseM CplxQ.re (fun _ _ _ => ⟨1, 0⟩) 1 (0, 0) 0 = CplxQ.re (⟨1, 0⟩ : CplxQ) ∧
    phaseM CplxQ.re (fun _ _ _ => ⟨1, 0⟩) 1 (0, 0) 0 =
      CplxQ.re (CplxQ.conj (⟨1, 0⟩ : CplxQ)) :=
  phase_conjugate_mirroring 1 (fun _ _ _ => ⟨1, 0⟩) CplxQ.re (fun _ _ => rfl) 0 0 0
    (le_refl 0) (by omega)

/-- C1 witness: the symmetry theorem applied at two channels with a
concrete estimator whose diagonal values are real. -/
theorem coherence_upper_triangle_symmetry_witness :
    coherencyM (fun i j _ => ⟨(i : ℚ), (j : ℚ) - (i : ℚ)⟩) 2 (1, 0) 0 =
      CplxQ.conj (coherencyM (fun i j _ => ⟨(i : ℚ), (j : ℚ) - (i : ℚ)⟩) 2 (0, 1) 0) ∧
    (upperPairs 2).length = 2 * (2 + 1) / 2 := by
  have h := coherence_upper_triangle_symmetry 2 (fun i j _ => ⟨(i : ℚ), (j : ℚ) - (i : ℚ)⟩)
    (fun _ _ _ => 0) (fun i f => by simp [CplxQ.conj])
  exact ⟨h.1 0 1 0 (by omega) (by omega), h.2.2.1⟩

/-- Modelled from the spec: the lazy derived-attribute cache contract of
`desc.setattr_on_read` and `desc.ResetMixin` (nitime/descriptors.py is
missing from the sources; only its uses in timeseries.py are present).
A derived attribute is a cell holding an optional cached value, paired
with an instrumentation counter recording how often the underlying
computation ran (the call-counting stub of the claim). -/
structure CachedAttr (α : Type) where
  cache : Option α
  calls : ℕ

/-- Modelled from the spec: reading a derived attribute returns the
cached value if present; otherwise it runs the computation, stores the
result and bumps the invocation counter. -/
def attrRead {α : Type} (compute : α) (s : CachedAttr α) : α × CachedAttr α :=
  match s.cache with
  | some v => (v, s)
  | none => (compute, ⟨some compute, s.calls + 1⟩)

/-- Modelled from the spec: the explicit reset clears the cached value
(the stub counter is instrumentation and survives). -/
def attrReset {α : Type} (s : CachedAttr α) : CachedAttr α :=
  ⟨none, s.calls⟩

/-- C5: starting from a fresh analyzer, reading a derived attribute twice
without reset returns the identical stored value both times and leaves
the cache state untouched on the second read -- the computation is
invoked exactly once (counter stays at 1) -- and after an explicit reset
the next read re-invokes the computation (counter goes from 1 to 2). -/
theorem lazy_cache_read_idempotent_reset_recomputes {α : Type} (compute : α) :
    (attrRead compute (CachedAttr.mk none 0)).1 = compute ∧
    (attrRead compute (attrRead compute (CachedAttr.mk none 0)).2).1 =
      (attrRead compute (CachedAttr.mk none 0)).1 ∧
    (attrRead compute (attrRead compute (CachedAttr.mk none 0)).2).2 =
      (attrRead compute (CachedAttr.mk none 0)).2 ∧
    (attrRead compute (CachedAttr.mk none 0)).2.cache =
      some (attrRead compute (CachedAttr.mk none 0)).1 ∧
    (attrRead compute (CachedAttr.mk none 0)).2.calls = 1 ∧
    (attrRead compute (attrRead compute (CachedAttr.mk none 0)).2).2.calls = 1 ∧
    (attrRead compute (attrReset
      (attrRead compute (attrRead compute (CachedAttr.mk none 0)).2).2)).2.calls = 2 :=
  ⟨rfl, rfl, rfl, rfl, rfl, rfl, rfl⟩

/-- Shallow embedding of the shapes a time series carries: its data-array
shape, its time-array shape and the time unit -- the fields that
`TimeSeriesBase._validate_dimensionality` inspects. -/
structure NonUniformTimeSeriesM where
  dataShape : List ℕ
  timeShape : List ℕ
  time_unit : TimeUnit
deriving DecidableEq, Repr

/-- Embeds `TimeSeriesBase._validate_dimensionality`: error when the time
array is not one-dimensional, or when `data.shape[-1] != len(time)`. -/
def validate_dimensionality (ts : NonUniformTimeSeriesM) : Except String Unit :=
  if ts.timeShape.length ≠ 1 then Except.error "time array must be one-dimensional"
  else if ts.dataShape.getLastD 0 ≠ ts.timeShape.headD 0 then
    Except.error "mismatch of time and data dimensions"
  else Except.ok ()

/-- Embeds `NonUniformTimeSeries.__init__`: it calls
`TimeSeriesBase.__init__` (which only checks the time unit -- always
valid for a `TimeUnit` value -- and stores data and metadata) and then
stores `np.asarray(time)`.  No constructor in the module ever invokes
`_validate_dimensionality`, so construction always succeeds. -/
def NonUniformTimeSeries_init (dataShape timeShape : List ℕ) (u : TimeUnit) :
    Except String NonUniformTimeSeriesM :=
  Except.ok ⟨dataShape, timeShape, u⟩

/-- C4: constructing with a data array of last-axis length 3 and a
one-dimensional time array of length 2 succeeds, producing an object
violating `data.shape[-1] == len(time)`, even though
`_validate_dimensionality` would reject exactly this object -- the
validator exists but is never called by the constructor. -/
theorem nonuniform_init_skips_validation :
    NonUniformTimeSeries_init [3] [2] TimeUnit.s =
      Except.ok ⟨[3], [2], TimeUnit.s⟩ ∧
    validate_dimensionality ⟨[3], [2], TimeUnit.s⟩ =
      Except.error "mismatch of time and data dimensions" :=
  ⟨rfl, rfl⟩

/-- Embeds `CoherenceAnalyzer.coherence_partial`.  The innermost loop of
the source reads `for k in xrange(t_series_length)` but the variable in
scope is named `tseries_length`, so evaluating the loop header raises
NameError as soon as the outer loops run at all (any channel count at
least 1); with zero channels the loops never execute and the empty
all-zeros tensor is returned.  Here `s` is the cross-spectrum tensor and
`pcc` the six-argument `tsa.coherence_partial_calculate` primitive
(never reached). -/
def coherencePartial (n F : ℕ) (s : ℕ → ℕ → ℕ → CplxQ)
    (pcc : CplxQ → CplxQ → CplxQ → CplxQ → CplxQ → CplxQ → CplxQ) :
    Except String (ℕ × ℕ × ℕ → ℕ → CplxQ) :=
  if n = 0 then Except.ok (fun _ _ => 0)
  else Except.error "NameError: global name t_series_length is not defined"

/-- C8: accessing `coherence_partial` on a series with at least one
channel raises NameError (undefined variable in the innermost loop
header) instead of returning the n-by-n-by-n-by-F tensor; the claimed
combination of the six cross/auto spectra is never computed. -/
theorem coherence_partial_raises (n F : ℕ) (s : ℕ → ℕ → ℕ → CplxQ)
    (pcc : CplxQ → CplxQ → CplxQ → CplxQ → CplxQ → CplxQ → CplxQ) (hn : 1 ≤ n) :
    coherencePartial n F s pcc =
      Except.error "NameError: global name t_series_length is not defined" := by
  rw [coherencePartial, if_neg (by omega)]

/-- C8 witness: a single-channel series with one frequency bin. -/
theorem coherence_partial_raises_witness :
    1 ≤ 1 ∧ coherencePartial 1 1 (fun _ _ _ => 0) (fun _ _ _ _ _ _ => 0) =
      Except.error "NameError: global name t_series_length is not defined" :=
  ⟨le_refl 1, coherence_partial_raises 1 1 (fun _ _ _ => 0) (fun _ _ _ _ _ _ => 0) (le_refl 1)⟩

/-- Embeds `np.mean` of a one-dimensional float array. -/
def listMean (x : List ℚ) : ℚ := x.sum / (x.length : ℚ)

/-- Deviations of a channel from its mean, the building block of the
Pearson coefficient. -/
def demean (x : List ℚ) : List ℚ := x.map fun a => a - listMean x

/-- Sum of products of deviations of two channels (their unnormalized
covariance). -/
def covSum (x y : List ℚ) : ℚ :=
  (((demean x).zip (demean y)).map fun p => p.1 * p.2).sum

/-- Modelled from the external numeric primitive `np.corrcoef` used by
`CorrelationAnalyzer.correlation`: `r` is the Pearson coefficient of the
channels `x` and `y` iff it carries the sign of the covariance and
`r^2 * var(x) * var(y) = cov(x,y)^2` -- a square-root-free
characterization of `cov/sqrt(var*var)`. -/
def isPearson (x y : List ℚ) (r : ℚ) : Prop :=
  r * r * (covSum x x * covSum y y) = covSum x y * covSum x y ∧
    (0 ≤ r ↔ 0 ≤ covSum x y)

/-- Modelled from the spec: `tsu.xcorr` returns the full ('full'
convolution semantics) cross-correlation of two length-T channels: a
length 2*T-1 array whose zero-lag value is the center entry, index T-1;
entry `m` is the sum over `n` of `x[n + m - (T-1)] * y[n]` over the valid
index range. -/
def xcorr_full (x y : List ℚ) : List ℚ :=
  (List.range (2 * x.length - 1)).map fun m =>
    ((List.range x.length).map fun n =>
      if x.length ≤ n + m + 1 ∧ n + m + 1 - x.length < x.length then
        x.getD (n + m + 1 - x.length) 0 * y.getD n 0
      else 0).sum

/-- Embeds the `CorrelationAnalyzer.xcorr_norm` loop body for one channel
pair: `xcorr[i,j] = tsu.xcorr(data[i], data[j])`, then
`xcorr[i,j] /= xcorr[i,j,t_points]` -- note the index `t_points` = T --
then `xcorr[i,j] *= correlation[i,j]`; `r` stands for the Pearson
coefficient `correlation[i,j]`. -/
def xcorr_norm_entry (x y : List ℚ) (r : ℚ) (m : ℕ) : ℚ :=
  ((xcorr_full x y).getD m 0 / (xcorr_full x y).getD x.length 0) * r

/-- C3: at the failing input -- the two channels `[1,2]` and `[1,3]`
(T = 2) -- the Pearson coefficient is exactly 1, but the normalized
cross-correlation at the zero-lag center index T-1 = 1 is 7/2, not the
Pearson coefficient; the entry equal to the Pearson coefficient sits at
index T = 2 instead, because the source normalizes by the entry at
`t_points` = T, one past the center of the length 2T-1 array. -/
theorem xcorr_norm_zero_lag_off_by_one (r : ℚ) (hr : isPearson [1, 2] [1, 3] r) :
    r = 1 ∧
    xcorr_norm_entry [1, 2] [1, 3] r 1 = 7 / 2 ∧
    xcorr_norm_entry [1, 2] [1, 3] r 1 ≠ r ∧
    xcorr_norm_entry [1, 2] [1, 3] r 2 = r := by
  obtain ⟨h1, h2⟩ := hr
  have hxx : covSum [1, 2] [1, 2] = 1 / 2 := by
    norm_num [covSum, demean, listMean]
  have hyy : covSum [1, 3] [1, 3] = 2 := by
    norm_num [covSum, demean, listMean]
  have hxy : covSum [1, 2] [1, 3] = 1 := by
    norm_num [covSum, demean, listMean]
  rw [hxx, hyy, hxy] at h1
  rw [hxy] at h2
  have hr0 : 0 ≤ r := h2.mpr (by norm_num)
  have hsq : r * r = 1 := by linarith [h1]
  have hfac : (r - 1) * (r + 1) = 0 := by linear_combination hsq
  have hr1 : r = 1 := by
    rcases mul_eq_zero.mp hfac with h | h
    · linarith
    · linarith
  subst hr1
  have he1 : xcorr_norm_entry [1, 2] [1, 3] 1 1 = 7 / 2 := by
    norm_num [xcorr_norm_entry, xcorr_full, List.range_succ]
  have he2 : xcorr_norm_entry [1, 2] [1, 3] 1 2 = 1 := by
    norm_num [xcorr_norm_entry, xcorr_full, List.range_succ]
  exact ⟨rfl, he1, by rw [he1]; norm_num, by rw [he2]⟩

/-- C3 witness: the theorem applied at the actual Pearson coefficient 1
of the failing input. -/
theorem xcorr_norm_zero_lag_off_by_one_witness :
    isPearson [1, 2] [1, 3] 1 ∧
    ((1 : ℚ) = 1 ∧
      xcorr_norm_entry [1, 2] [1, 3] 1 1 = 7 / 2 ∧
      xcorr_norm_entry [1, 2] [1, 3] 1 1 ≠ 1 ∧
      xcorr_norm_entry [1, 2] [1, 3] 1 2 = 1) := by
  have hP : isPearson [1, 2] [1, 3] 1 := by
    constructor
    · norm_num [covSum, demean, listMean]
    · norm_num [covSum, demean, listMean]
  exact ⟨hP, xcorr_norm_zero_lag_off_by_one 1 hP⟩

/-- Modelled from the spec: `tsu.get_freqs(Fs, n)` is the non-negative
frequency grid `np.linspace(0, Fs/2, n/2+1)` (integer division on n). -/
def get_freqs (Fs : ℚ) (N : ℕ) : List ℚ :=
  (List.range (N / 2 + 1)).map fun (k : ℕ) => (k : ℚ) * (Fs / 2) / ((N / 2 : ℕ) : ℚ)

/-- Embeds the out-of-band index array
`idx_0 = np.hstack([np.where(freqs < lb)[0], np.where(freqs > ub)[0]])`
shared by `HilbertAnalyzer.__init__` and
`FilterAnalyzer.filtered_fourier`. -/
def idx0 (Fs : ℚ) (N : ℕ) (lb ub : ℚ) : List ℕ :=
  ((List.range (N / 2 + 1)).filter fun k => decide ((get_freqs Fs N).getD k 0 < lb)) ++
    ((List.range (N / 2 + 1)).filter fun k => decide (ub < (get_freqs Fs N).getD k 0))

/-- Embeds the default upper bound: `if ub is None: ub = freqs[-1]`. -/
def resolveUb (Fs : ℚ) (N : ℕ) (ub : Option ℚ) : ℚ :=
  ub.getD ((get_freqs Fs N).getLastD 0)

/-- Embeds the Fourier-coefficient zeroing of
`FilterAnalyzer.filtered_fourier`: `power[..., idx_0] = 0`.  The
companion line `power[..., -1*idx_0] = 0` for the mirrored
negative-frequency coefficients is commented out in the source, so those
coefficients are left untouched. -/
def filtered_fourier_power (Fs : ℚ) (N : ℕ) (lb : ℚ) (ub : Option ℚ)
    (power : ℕ → CplxQ) : ℕ → CplxQ :=
  fun k => if k ∈ idx0 Fs N lb (resolveUb Fs N ub) then 0 else power k

/-- Embeds the Fourier-coefficient zeroing of `HilbertAnalyzer.__init__`:
`power[..., idx_0] = 0` followed by `power[..., -1*idx_0] = 0`; the numpy
index `-m` denotes position `N - m` (and `-0` is `0`), so the mirrored
cell of `m` is `(N - m) % N`. -/
def hilbert_power (Fs : ℚ) (N : ℕ) (lb : ℚ) (ub : Option ℚ)
    (power : ℕ → CplxQ) : ℕ → CplxQ :=
  fun k =>
    if k ∈ idx0 Fs N lb (resolveUb Fs N ub) ∨
        ∃ m ∈ idx0 Fs N lb (resolveUb Fs N ub), k = (N - m) % N then 0
    else power k

/-- Embeds the final step of `filtered_fourier`: inverse transform of the
zeroed coefficients, then `np.real(...)` to discard the float-precision
residual imaginary part; `ifft` is the external inverse-FFT primitive. -/
def filtered_fourier_data (ifft : (ℕ → CplxQ) → ℕ → CplxQ) (Fs : ℚ) (N : ℕ)
    (lb : ℚ) (ub : Option ℚ) (power : ℕ → CplxQ) : ℕ → ℚ :=
  fun t => (ifft (filtered_fourier_power Fs N lb ub power) t).re

/-- Embeds the final step of `HilbertAnalyzer.__init__`: inverse
transform of the zeroed coefficients, then `np.real(...)`. -/
def hilbert_data (ifft : (ℕ → CplxQ) → ℕ → CplxQ) (Fs : ℚ) (N : ℕ)
    (lb : ℚ) (ub : Option ℚ) (power : ℕ → CplxQ) : ℕ → ℚ :=
  fun t => (ifft (hilbert_power Fs N lb ub power) t).re

/-- C9 counterexample: four samples at rate 4 with band [0, 1/2].
Frequency index 1 is out of band and its mirrored negative-frequency
position is 3, but `filtered_fourier` leaves coefficient 3 of an all-ones
transform untouched (value 1, not 0): the mirrored negative-frequency
coefficients are not zeroed. -/
theorem filtered_fourier_negative_not_zeroed_cex :
    1 ∈ idx0 4 4 0 (resolveUb 4 4 (some (1 / 2))) ∧
    (4 - 1) % 4 = 3 ∧
    filtered_fourier_power 4 4 0 (some (1 / 2)) (fun _ => 1) 3 = 1 ∧
    ((1 : CplxQ) ≠ 0) := by
  have hfr : get_freqs 4 4 = [0, 1, 2] := by
    norm_num [get_freqs, List.range_succ]
  have hidx : idx0 4 4 0 (resolveUb 4 4 (some (1 / 2))) = [1, 2] := by
    norm_num [idx0, resolveUb, hfr, List.range_succ, List.filter]
  refine ⟨by rw [hidx]; norm_num, by norm_num, ?_, by decide⟩
  rw [filtered_fourier_power]
  rw [if_neg (by rw [hidx]; norm_num)]

/-- C9 (amended): both analyzers zero the Fourier coefficients at the
out-of-band non-negative frequency indices before inverse-transforming
and discarding the residual imaginary part; the Hilbert analyzer
additionally zeroes the mirrored negative-frequency coefficients, but
`filtered_fourier` does not (its mirroring line is commented out): it
leaves every coefficient outside `idx_0` unchanged. -/
theorem band_limit_zeroing (Fs : ℚ) (N : ℕ) (lb : ℚ) (ub : Option ℚ)
    (power : ℕ → CplxQ) :
    (∀ k ∈ idx0 Fs N lb (resolveUb Fs N ub),
      hilbert_power Fs N lb ub power k = 0 ∧
      hilbert_power Fs N lb ub power ((N - k) % N) = 0 ∧
      filtered_fourier_power Fs N lb ub power k = 0) ∧
    (∀ k, k ∉ idx0 Fs N lb (resolveUb Fs N ub) →
      filtered_fourier_power Fs N lb ub power k = power k) ∧
    (∀ (ifft : (ℕ → CplxQ) → ℕ → CplxQ) (t : ℕ),
      filtered_fourier_data ifft Fs N lb ub power t =
        (ifft (filtered_fourier_power Fs N lb ub power) t).re ∧
      hilbert_data ifft Fs N lb ub power t =
        (ifft (hilbert_power Fs N lb ub power) t).re) := by
  refine ⟨?_, ?_, fun ifft t => ⟨rfl, rfl⟩⟩
  · intro k hk
    refine ⟨?_, ?_, ?_⟩
    · rw [hilbert_power, if_pos (Or.inl hk)]
    · rw [hilbert_power, if_pos (Or.inr ⟨k, hk, rfl⟩)]
    · rw [filtered_fourier_power, if_pos hk]
  · intro k hk
    rw [filtered_fourier_power, if_neg hk]

/-- C9 witness: the zeroing theorem applied at four samples, rate 4, band
[0, 1/2], out-of-band index 1 and in-band index 0. -/
theorem band_limit_zeroing_witness :
    (hilbert_power 4 4 0 (some (1 / 2)) (fun _ => 1) 1 = 0 ∧
      hilbert_power 4 4 0 (some (1 / 2)) (fun _ => 1) ((4 - 1) % 4) = 0 ∧
      filtered_fourier_power 4 4 0 (some (1 / 2)) (fun _ => 1) 1 = 0) ∧
    filtered_fourier_power 4 4 0 (some (1 / 2)) (fun _ => 1) 0 = (fun _ => (1 : CplxQ)) 0 := by
  have hfr : get_freqs 4 4 = [0, 1, 2] := by
    norm_num [get_freqs, List.range_succ]
  have hidx : idx0 4 4 0 (resolveUb 4 4 (some (1 / 2))) = [1, 2] := by
    norm_num [idx0, resolveUb, hfr, List.range_succ, List.filter]
  have h := band_limit_zeroing 4 4 0 (some (1 / 2)) (fun _ => 1)
  exact ⟨h.1 1 (by rw [hidx]; norm_num), h.2.1 0 (by rw [hidx]; norm_num)⟩

/-- Python dict objects observed through item get/set, modelled
extensionally as key-to-optional-value maps; method descriptors hold both
strings and numbers. -/
inductive PyVal where
  | str (s : String)
  | num (q : ℚ)
deriving DecidableEq, Repr

/-- A dict as an extensional map. -/
def PyDict : Type := String → Option PyVal

/-- Dict item assignment `d[k] = v`. -/
def dictSet (d : PyDict) (k : String) (v : PyVal) : PyDict :=
  fun k2 => if k2 = k then some v else d k2

/-- The heap of dict objects: Python object identity is a reference into
the heap, and `self.method = method` stores the reference, never a
copy. -/
def Heap : Type := ℕ → PyDict

/-- Mutating the dict object at reference `r`. -/
def heapSet (h : Heap) (r : ℕ) (d : PyDict) : Heap :=
  fun r2 => if r2 = r then d else h r2

/-- Embeds `CoherenceAnalyzer.__init__` for a caller-supplied method dict
at reference `ref`: `self.method = method` aliases the dict, then
`self.method['Fs'] = self.method.get('Fs', self.sampling_rate)` writes
through the shared reference.  Returns the reference the analyzer stores
and the heap after construction. -/
def coherence_analyzer_init (h : Heap) (ref : ℕ) (rate : ℚ) : ℕ × Heap :=
  let d := h ref
  (ref, heapSet h ref (dictSet d "Fs" ((d "Fs").getD (PyVal.num rate))))

/-- Embeds `SparseCoherenceAnalyzer.__init__` for a caller-supplied
method dict: `self.method = method` aliases the dict; reading
`self.method['this_method']` raises KeyError when the key is missing and
ValueError when it is not the string mlab; otherwise the `Fs` entry is
injected through the shared reference exactly as in the dense
analyzer. -/
def sparse_coherence_analyzer_init (h : Heap) (ref : ℕ) (rate : ℚ) :
    Except String (ℕ × Heap) :=
  let d := h ref
  match d "this_method" with
  | none => Except.error "KeyError: this_method"
  | some v =>
    if v ≠ PyVal.str "mlab" then
      Except.error "For SparseCoherenceAnalyzer, spectral estimation method must be mlab"
    else
      Except.ok (ref, heapSet h ref (dictSet d "Fs" ((d "Fs").getD (PyVal.num rate))))

/-- Embeds `SpectralAnalyzer.spectrum_mlab`:
`self.mlab_method = self.method` aliases the dict supplied at
construction, then `self.mlab_method['this_method'] = 'mlab'` and
`self.mlab_method['Fs'] = self.sampling_rate` write through the shared
reference. -/
def spectrum_mlab_method (h : Heap) (ref : ℕ) (rate : ℚ) : ℕ × Heap :=
  let d := h ref
  (ref, heapSet h ref
    (dictSet (dictSet d "this_method" (PyVal.str "mlab")) "Fs" (PyVal.num rate)))

/-- C10: when the caller-supplied method dict lacks an Fs key, the dense
and sparse coherence analyzers keep a reference to that very dict and
insert the Fs entry (the sampling rate) in place, and
`spectrum_mlab` likewise inserts this_method and Fs; in each case the
injection is visible through the caller-held reference after
construction / first access. -/
theorem method_dict_mutated_in_place (h : Heap) (ref : ℕ) (rate : ℚ)
    (hFs : h ref "Fs" = none) :
    ((coherence_analyzer_init h ref rate).1 = ref ∧
      (coherence_analyzer_init h ref rate).2 ref "Fs" = some (PyVal.num rate)) ∧
    (h ref "this_method" = some (PyVal.str "mlab") →
      ∃ res : ℕ × Heap, sparse_coherence_analyzer_init h ref rate = Except.ok res ∧
        res.1 = ref ∧ res.2 ref "Fs" = some (PyVal.num rate)) ∧
    ((spectrum_mlab_method h ref rate).1 = ref ∧
      (spectrum_mlab_method h ref rate).2 ref "this_method" = some (PyVal.str "mlab") ∧
      (spectrum_mlab_method h ref rate).2 ref "Fs" = some (PyVal.num rate)) := by
  refine ⟨⟨rfl, ?_⟩, ?_, rfl, ?_, ?_⟩
  · simp [coherence_analyzer_init, heapSet, dictSet, hFs]
  · intro htm
    refine ⟨(ref, heapSet h ref (dictSet (h ref) "Fs" ((h ref "Fs").getD (PyVal.num rate)))),
      ?_, rfl, ?_⟩
    · rw [sparse_coherence_analyzer_init]
      simp only [htm]
      rw [if_neg (by simp)]
    · simp [heapSet, dictSet, hFs]
  · simp [spectrum_mlab_method, heapSet, dictSet]
  · simp [spectrum_mlab_method, heapSet, dictSet]

/-- C10 witness: a heap with one dict holding only the mlab method name
and no Fs key, sampling rate 5. -/
theorem method_dict_mutated_in_place_witness :
    (coherence_analyzer_init
        (fun _ => fun k => if k = "this_method" then some (PyVal.str "mlab") else none) 0 5).2
      0 "Fs" = some (PyVal.num 5) ∧
    (spectrum_mlab_method
        (fun _ => fun k => if k = "this_method" then some (PyVal.str "mlab") else none) 0 5).2
      0 "this_method" = some (PyVal.str "mlab") := by
  have h := method_dict_mutated_in_place
    (fun _ => fun k => if k = "this_method" then some (PyVal.str "mlab") else none) 0 5
    (by
      show (if ("Fs" : String) = "this_method" then some (PyVal.str "mlab") else none) = none
      rw [if_neg (by decide)])
  exact ⟨h.1.2, h.2.2.2.1⟩
